import Mathlib

/-!
Shallow embedding of `LL1Parser.py`: grammar model, FIRST/FOLLOW fixed-point
engines, parse-table construction with conflict reporting, and the
table-driven parsing state machine.  Python sets are modelled as
insertion-ordered duplicate-free lists (membership, union-by-insertion and
subset test mirror `in`, `set.update` and `set.issubset`); Python dicts whose
keys are tracked by a separate list are modelled as total functions that are
empty outside the tracked keys.
-/

namespace LL1

/-- Grammar symbols are plain strings, exactly as in the Python source. -/
abbrev Symbol := String

/-- A production right-hand side: an ordered list of symbols. -/
abbrev Production := List Symbol

/-- The reserved empty-production marker `'ε'`. -/
def epsSym : Symbol := "ε"

/-- The reserved end-of-input marker `'$'`. -/
def endSym : Symbol := "$"

/-- Add one element to a Python-style set (a duplicate-free list): `s.add(x)`.
A no-op when the element is present, otherwise appended. -/
def addS (a : List Symbol) (x : Symbol) : List Symbol :=
  if x ∈ a then a else a ++ [x]

/-- Set union in place, `a.update(b)`: add every element of `b` to `a`. -/
def unionS (a b : List Symbol) : List Symbol := b.foldl addS a

/-- Subset test `a.issubset(b)`. -/
def subS (a b : List Symbol) : Prop := ∀ x ∈ a, x ∈ b

instance (a b : List Symbol) : Decidable (subS a b) :=
  List.decidableBAll (· ∈ b) a

/-- Lexicographic comparison of strings by code point, mirroring Python's
`<` on `str` (used only through `sorted`). -/
def strLtB : List Char → List Char → Bool
  | [], [] => false
  | [], _ :: _ => true
  | _ :: _, [] => false
  | a :: as, b :: bs => if a = b then strLtB as bs else a.toNat < b.toNat

/-- Non-strict string comparison used by the insertion sort below. -/
def strLeB (a b : Symbol) : Bool := ! strLtB b.data a.data

/-- Insert into a sorted list of strings. -/
def insSorted (s : Symbol) : List Symbol → List Symbol
  | [] => [s]
  | t :: rest => if strLeB s t then s :: t :: rest else t :: insSorted s rest

/-- `sorted(...)` on a list of strings (insertion sort; the order is only
presentational in the source, membership is what the core consumes). -/
def sortStrs (l : List Symbol) : List Symbol := l.foldr insSorted []

/-- The grammar: an insertion-ordered mapping from non-terminal to its list
of productions, mirroring the `OrderedDict` `self.grammar`.  The key list in
order doubles as `self.non_terminals`, which `read_grammar` keeps in sync
with the dict keys. -/
structure Grammar where
  rules : List (Symbol × List Production)
  deriving DecidableEq, Repr

/-- `self.non_terminals`: the keys of the grammar in insertion order. -/
def Grammar.nonTerminals (g : Grammar) : List Symbol := g.rules.map Prod.fst

/-- `self.grammar[nt]`: the productions registered for a non-terminal. -/
def Grammar.prods (g : Grammar) (nt : Symbol) : List Production :=
  match g.rules.find? (fun r => r.1 == nt) with
  | some r => r.2
  | none => []

/-- `self.start_symbol = list(self.grammar.keys())[0]` (the source only reads
it after `read_grammar` has checked the grammar is nonempty). -/
def Grammar.startSymbol (g : Grammar) : Symbol := g.nonTerminals.headD ""

/-- `_find_terminals`: every symbol occurring in a production body that is
neither the empty marker nor a registered non-terminal, sorted, with the end
marker appended. -/
def find_terminals (g : Grammar) : List Symbol :=
  let collected := g.rules.foldl (fun acc r =>
    r.2.foldl (fun acc p =>
      p.foldl (fun acc s =>
        if s ≠ epsSym ∧ s ∉ g.nonTerminals then addS acc s else acc) acc) acc) []
  sortStrs collected ++ [endSym]

/-- `_compute_first_for_sequence`: FIRST of a symbol sequence, left to right.
The running set accumulated by the Python loop is rendered as a union with
the recursive call on the remainder of the sequence. -/
def first_for_sequence (ts : List Symbol) (fs : Symbol → List Symbol) :
    List Symbol → List Symbol
  | [] => []
  | s :: rest =>
    if s = epsSym then [epsSym]
    else if s ∈ ts then [s]
    else
      let sf := fs s
      if epsSym ∈ sf then
        if rest = [] then addS (sf.erase epsSym) epsSym
        else unionS (sf.erase epsSym) (first_for_sequence ts fs rest)
      else sf

/-- The update idiom shared by both fixed-point loops:
`if not add.issubset(sets[k]): sets[k].update(add); changed = True`. -/
def tryUpd (acc : (Symbol → List Symbol) × Bool) (k : Symbol)
    (add : List Symbol) : (Symbol → List Symbol) × Bool :=
  if subS add (acc.1 k) then acc
  else (Function.update acc.1 k (unionS (acc.1 k) add), true)

/-- One full pass of the FIRST fixed-point loop (`while changed` body of
`compute_first_sets`), returning the updated sets and the `changed` flag. -/
def first_pass (g : Grammar) (ts : List Symbol) (fs0 : Symbol → List Symbol) :
    (Symbol → List Symbol) × Bool :=
  g.nonTerminals.foldl (fun acc nt =>
    (g.prods nt).foldl (fun acc p =>
      tryUpd acc nt (first_for_sequence ts acc.1 p)) acc)
    (fs0, false)

/-- Run a pass repeatedly while it reports a change, with explicit fuel
standing in for the unbounded Python `while changed:` loop. -/
def fixIter (pass : (Symbol → List Symbol) → (Symbol → List Symbol) × Bool) :
    Nat → (Symbol → List Symbol) → Symbol → List Symbol
  | 0, fs => fs
  | n + 1, fs =>
    let r := pass fs
    if r.2 then fixIter pass n r.1 else r.1

/-- Enough passes for the FIRST loop to reach its fixed point: every
non-quiescent pass strictly grows the total size of the sets, which is
bounded by the number of non-terminals times the alphabet size. -/
def first_fuel (g : Grammar) (ts : List Symbol) : Nat :=
  g.nonTerminals.length * (ts.length + 1) + 1

/-- `compute_first_sets`: every non-terminal starts at the empty set, then
full passes run until none reports a change. -/
def compute_first_sets (g : Grammar) (ts : List Symbol) : Symbol → List Symbol :=
  fixIter (first_pass g ts) (first_fuel g ts) (fun _ => [])

/-- One full pass of the FOLLOW fixed-point loop (`while changed` body of
`compute_follow_sets`).  For each non-terminal occurrence at position `i`
with remainder `β`, rule 1 adds `FIRST(β)` minus the empty marker, and
rule 2 adds `FOLLOW(A)` when `FIRST(β)` contains the empty marker or the
occurrence is last. -/
def follow_pass (g : Grammar) (ts : List Symbol) (fs : Symbol → List Symbol)
    (fo0 : Symbol → List Symbol) : (Symbol → List Symbol) × Bool :=
  g.nonTerminals.foldl (fun acc nt =>
    (g.prods nt).foldl (fun acc p =>
      p.enum.foldl (fun acc iv =>
        if iv.2 ∈ g.nonTerminals then
          let fr := first_for_sequence ts fs (p.drop (iv.1 + 1))
          let acc1 := tryUpd acc iv.2 (fr.erase epsSym)
          if epsSym ∈ fr ∨ iv.1 = p.length - 1 then
            tryUpd acc1 iv.2 (acc1.1 nt)
          else acc1
        else acc) acc) acc)
    (fo0, false)

/-- Fuel bound for the FOLLOW loop, by the same counting argument. -/
def follow_fuel (g : Grammar) (ts : List Symbol) : Nat :=
  g.nonTerminals.length * (ts.length + 1) + 1

/-- `compute_follow_sets`: all sets start empty except the start symbol's,
seeded with the end marker; passes run until none reports a change. -/
def compute_follow_sets (g : Grammar) (ts : List Symbol)
    (fs : Symbol → List Symbol) : Symbol → List Symbol :=
  fixIter (follow_pass g ts fs)
    (follow_fuel g ts)
    (Function.update (fun _ => []) g.startSymbol [endSym])

/-- One table assignment `self.parse_table[(nt, t)] = production`, preceded
by the conflict warning when the cell is already occupied.  The conflict
diagnostic is modelled as the cell being appended to a report list. -/
def assignCell (acc : ((Symbol × Symbol) → Option Production) × List (Symbol × Symbol))
    (nt t : Symbol) (p : Production) :
    ((Symbol × Symbol) → Option Production) × List (Symbol × Symbol) :=
  let cf := if (acc.1 (nt, t)).isSome then acc.2 ++ [(nt, t)] else acc.2
  (Function.update acc.1 (nt, t) (some p), cf)

/-- `build_parse_table`.  The initialization loop sets every cell to `None`,
which the total-function representation with default `none` renders as the
constant-`none` start table.  For each production `p` of `A`: every
non-`ε` terminal of `FIRST(p)` gets the cell `(A, t)`; if `ε ∈ FIRST(p)`,
every terminal of `FOLLOW(A)` gets the cell as well.  Returns the table and
the list of cells for which a conflict warning was printed, in order. -/
def build_parse_table (g : Grammar) (ts : List Symbol)
    (fs fo : Symbol → List Symbol) :
    ((Symbol × Symbol) → Option Production) × List (Symbol × Symbol) :=
  g.nonTerminals.foldl (fun acc nt =>
    (g.prods nt).foldl (fun acc p =>
      let fa := first_for_sequence ts fs p
      let acc1 := fa.foldl (fun a t =>
        if t = epsSym then a else assignCell a nt t p) acc
      if epsSym ∈ fa then
        (fo nt).foldl (fun a t => assignCell a nt t p) acc1
      else acc1) acc)
    ((fun _ => none), [])

/-- The action recorded in a parsing step (the Python source stores these as
formatted strings; only the tag and its arguments are semantic). -/
inductive Action where
  | accept
  | matchTok (t : Symbol)
  | applyRule (nt : Symbol) (p : Production)
  | errMismatch (expected got : Symbol)
  | errNoRule (nt tok : Symbol)
  deriving DecidableEq, Repr

/-- One row of the parsing trace: the stack snapshot (top of stack first,
i.e. the reverse of the bottom-to-top Python rendering), the remaining
input `input_string[pointer:]`, and the action taken. -/
structure TraceStep where
  stackSnap : List Symbol
  restInput : List Symbol
  act : Action
  deriving DecidableEq, Repr

/-- Result of evaluating the body of the `parse_input` loop once: either the
loop breaks (accept or one of the two error states), or it continues with a
new stack and pointer. -/
inductive StepRes where
  | halt (a : Action) (accepted : Bool)
  | goOn (stack : List Symbol) (ptr : Nat) (a : Action)
  deriving DecidableEq, Repr

/-- The body of the `parse_input` loop, as a function of the stack top, the
rest of the stack (the stack is kept top-first), the current token and the
pointer.  Mirrors the three-way branch of the source: accept check first,
then the terminal match/mismatch branch, then the table lookup. -/
def parse_step (table : (Symbol × Symbol) → Option Production)
    (ts : List Symbol) (top : Symbol) (rest : List Symbol)
    (cur : Symbol) (ptr : Nat) : StepRes :=
  if top = endSym ∧ cur = endSym then .halt .accept true
  else if top ∈ ts then
    if top = cur then .goOn rest (ptr + 1) (.matchTok top)
    else .halt (.errMismatch top cur) false
  else
    match table (top, cur) with
    | some p =>
      .goOn (if p = [epsSym] then rest else p ++ rest) ptr (.applyRule top p)
    | none => .halt (.errNoRule top cur) false

/-- Outcome of a fueled run of the parsing loop.  `fuelOut` stands for the
fuel running out (the Python loop has no bound and would simply keep
running); `idxErr` marks an out-of-bounds read `input_string[pointer]`,
which in Python would raise. -/
inductive ParseOut where
  | finished (trace : List TraceStep) (accepted : Bool)
  | fuelOut
  | idxErr
  deriving DecidableEq, Repr

/-- The `while len(stack) > 0` loop of `parse_input`, with explicit fuel.
Each iteration reads `input_string[pointer]`, records a step, and either
breaks or continues per `parse_step`. -/
def parse_loop (table : (Symbol × Symbol) → Option Production)
    (ts : List Symbol) (input : List Symbol) :
    Nat → List Symbol → Nat → List TraceStep → ParseOut
  | 0, _, _, _ => .fuelOut
  | n + 1, stack, ptr, trace =>
    match stack with
    | [] => .finished trace false
    | top :: rest =>
      match input.get? ptr with
      | none => .idxErr
      | some cur =>
        match parse_step table ts top rest cur ptr with
        | .halt a acc => .finished (trace ++ [⟨top :: rest, input.drop ptr, a⟩]) acc
        | .goOn st p' a =>
          parse_loop table ts input n st p' (trace ++ [⟨top :: rest, input.drop ptr, a⟩])

/-- `parse_input`: the stack starts as end marker below the start symbol
(top-first here, so `[start, $]`), the end marker is appended to the token
list, and the pointer starts at 0 with an empty trace. -/
def parse_input (table : (Symbol × Symbol) → Option Production)
    (ts : List Symbol) (start : Symbol) (tokens : List Symbol)
    (fuel : Nat) : ParseOut :=
  parse_loop table ts (tokens ++ [endSym]) fuel [start, endSym] 0 []

/-- Python `str.strip()` on the character list of a line. -/
def stripChars (l : List Char) : List Char :=
  ((l.dropWhile Char.isWhitespace).reverse.dropWhile Char.isWhitespace).reverse

/-- Python `line.startswith('#')`. -/
def startsHash : List Char → Bool
  | '#' :: _ => true
  | _ => false

/-- Python `line.split('->')`: split at every non-overlapping occurrence of
the two-character separator, scanning left to right. -/
def splitArrow : List Char → List (List Char)
  | [] => [[]]
  | '-' :: '>' :: rest => [] :: splitArrow rest
  | c :: rest =>
    match splitArrow rest with
    | [] => [[c]]
    | seg :: segs => (c :: seg) :: segs

/-- Split a character list at every character satisfying the test (keeping
empty segments, as Python's single-separator `split` does). -/
def splitOnPred (sep : Char → Bool) : List Char → List (List Char)
  | [] => [[]]
  | a :: rest =>
    if sep a then [] :: splitOnPred sep rest
    else
      match splitOnPred sep rest with
      | [] => [[a]]
      | seg :: segs => (a :: seg) :: segs

/-- Python `p.split()` with no argument: whitespace-separated tokens, with
empty segments dropped. -/
def wsTokens (l : List Char) : List Symbol :=
  ((splitOnPred Char.isWhitespace l).filter (· ≠ [])).map List.asString

/-- Merge newly parsed productions into the grammar under construction:
`self.grammar[nt].extend(productions)`, after registering `nt` on first
sight (which keeps the key list and `self.non_terminals` in sync). -/
def addRule (rules : List (Symbol × List Production)) (nt : Symbol)
    (ps : List Production) : List (Symbol × List Production) :=
  if rules.any (fun r => r.1 == nt) then
    rules.map (fun r => if r.1 = nt then (r.1, r.2 ++ ps) else r)
  else rules ++ [(nt, ps)]

/-- The per-line body of `read_grammar`: strip the line; skip it when empty
or a `#` comment; skip it with a format diagnostic when it has no `->`
separator; otherwise parse `head -> body1 | body2 | ...` and merge. -/
def processLine (rules : List (Symbol × List Production)) (line : String) :
    List (Symbol × List Production) :=
  let t := stripChars line.data
  if t = [] ∨ startsHash t then rules
  else
    let parts := splitArrow t
    if parts.length = 1 then rules
    else
      let nt := (stripChars (parts.headD [])).asString
      let bodies := splitOnPred (· = '|') (parts.getD 1 [])
      addRule rules nt (bodies.map wsTokens)

/-- `read_grammar` on the lines of the grammar file.  `none` models the
failure path that prints an error and returns `False` (no production rules
were ingested: the `EmptyGrammarError` of the spec); on success the
ingested grammar is returned. -/
def read_grammar (lines : List String) : Option Grammar :=
  let rules := lines.foldl processLine []
  if rules = [] then none else some ⟨rules⟩

/-- A line that `read_grammar` ingests as a production rule: nonempty after
stripping, not a comment, and containing the `->` separator. -/
def isRuleLine (line : String) : Prop :=
  ¬ (stripChars line.data = [] ∨ startsHash (stripChars line.data) = true) ∧
    (splitArrow (stripChars line.data)).length ≠ 1

instance : DecidablePred isRuleLine := fun l => by
  unfold isRuleLine
  infer_instance

/-- The mutable fields of the `LL1Parser` object. -/
structure ParserState where
  grammar : Grammar
  terminals : List Symbol
  first_sets : Symbol → List Symbol
  follow_sets : Symbol → List Symbol
  parse_table : (Symbol × Symbol) → Option Production
  start_symbol : Symbol

/-- The method `compute_first_sets` as a state transformer: it reinitializes
`self.first_sets` from scratch and recomputes the fixed point from
`self.grammar` and `self.terminals`, leaving every other field alone
(`self.non_terminals` is the grammar's key list). -/
def computeFirstSetsM (st : ParserState) : ParserState :=
  { st with first_sets := compute_first_sets st.grammar st.terminals }

/-- Written from the words of spec §4.2 for comparison with the source's
`_compute_first_for_sequence`: walk the sequence left to right; the empty
marker adds itself and stops; a terminal adds itself and stops; a
non-terminal adds its FIRST set minus the empty marker, continues only when
that FIRST set contains the empty marker, and contributes the empty marker
when such a nullable non-terminal is the last symbol; an empty sequence
yields the empty set. -/
def spec_first_of_sequence (ts : List Symbol) (fs : Symbol → List Symbol) :
    List Symbol → List Symbol
  | [] => []
  | s :: rest =>
    if s = epsSym then [epsSym]
    else if s ∈ ts then [s]
    else if epsSym ∈ fs s then
      if rest = [] then addS ((fs s).erase epsSym) epsSym
      else unionS ((fs s).erase epsSym) (spec_first_of_sequence ts fs rest)
    else (fs s).erase epsSym

/-- Written from the words of spec §4.5 for comparison with the loop body of
`parse_input`: end marker on top with end marker as current token accepts; a
terminal on top pops and advances exactly on equality and otherwise is a
token-mismatch terminal state; a non-terminal on top looks up the table,
pops and pushes the production's symbols in reverse order (one by one, so
the leftmost ends on top), the empty-marker production pushing nothing, and
is a no-applicable-rule terminal state when the cell is empty. -/
def spec_transition (table : (Symbol × Symbol) → Option Production)
    (ts : List Symbol) (top : Symbol) (rest : List Symbol)
    (cur : Symbol) (ptr : Nat) : StepRes :=
  if top = endSym ∧ cur = endSym then .halt .accept true
  else if top ∈ ts then
    if top = cur then .goOn rest (ptr + 1) (.matchTok top)
    else .halt (.errMismatch top cur) false
  else
    match table (top, cur) with
    | some p =>
      .goOn (if p = [epsSym] then rest
             else p.reverse.foldl (fun st s => s :: st) rest)
        ptr (.applyRule top p)
    | none => .halt (.errNoRule top cur) false

/-- The sequence of cell assignments `build_parse_table` performs for one
production of `A`, in order: the FIRST-phase assignments, then, when the
production is nullable, the FOLLOW-phase assignments. -/
def prodWrites (ts : List Symbol) (fs fo : Symbol → List Symbol)
    (nt : Symbol) (p : Production) : List ((Symbol × Symbol) × Production) :=
  let fa := first_for_sequence ts fs p
  fa.filterMap (fun t => if t = epsSym then none else some ((nt, t), p))
    ++ (if epsSym ∈ fa then (fo nt).map (fun t => ((nt, t), p)) else [])

/-- All cell assignments of `build_parse_table`, in execution order. -/
def writeEvents (g : Grammar) (ts : List Symbol)
    (fs fo : Symbol → List Symbol) : List ((Symbol × Symbol) × Production) :=
  g.nonTerminals.flatMap (fun nt =>
    (g.prods nt).flatMap (fun p => prodWrites ts fs fo nt p))

/-- The productions assigned to one cell, in assignment order. -/
def writesTo (evs : List ((Symbol × Symbol) × Production))
    (c : Symbol × Symbol) : List Production :=
  evs.filterMap (fun e => if e.1 = c then some e.2 else none)

/-- Replay a list of assignments through `assignCell`. -/
def replayWrites (evs : List ((Symbol × Symbol) × Production))
    (acc : ((Symbol × Symbol) → Option Production) × List (Symbol × Symbol)) :
    ((Symbol × Symbol) → Option Production) × List (Symbol × Symbol) :=
  evs.foldl (fun a e => assignCell a e.1.1 e.1.2 e.2) acc

/-- A parse run that exhausts every fuel bound: the faithful rendering of
the unbounded `while` loop of `parse_input` running forever. -/
def parseDiverges (table : (Symbol × Symbol) → Option Production)
    (ts : List Symbol) (start : Symbol) (tokens : List Symbol) : Prop :=
  ∀ fuel, parse_input table ts start tokens fuel = ParseOut.fuelOut

/-- The FIRST sets as computed by the `main` pipeline: `read_grammar` set the
terminals, then `compute_first_sets` runs. -/
def pipelineFirst (g : Grammar) : Symbol → List Symbol :=
  compute_first_sets g (find_terminals g)

/-- The FOLLOW sets as computed by the `main` pipeline. -/
def pipelineFollow (g : Grammar) : Symbol → List Symbol :=
  compute_follow_sets g (find_terminals g) (pipelineFirst g)

/-- The parse table and conflict reports as computed by the `main` pipeline. -/
def pipelineTable (g : Grammar) :
    ((Symbol × Symbol) → Option Production) × List (Symbol × Symbol) :=
  build_parse_table g (find_terminals g) (pipelineFirst g) (pipelineFollow g)

/-- Concrete grammar for the ambiguity scenario: `S -> a | a b`. -/
def gAmb : Grammar := ⟨[("S", [["a"], ["a", "b"]])]⟩

/-- Concrete grammar refuting the claimed LL(1) overlap condition:
`S -> A a`, `A -> a | ε`. -/
def gOverlap : Grammar := ⟨[("S", [["A", "a"]]), ("A", [["a"], ["ε"]])]⟩

/-- Concrete conflict-free witness grammar `A -> a | ε`. -/
def gNullOk : Grammar := ⟨[("A", [["a"], ["ε"]])]⟩

/-- A parse table on which `parse_input` loops forever: the single entry
`(S, a) ↦ S` keeps replacing the stack top `S` by `S` without consuming
input. -/
def loopTable : (Symbol × Symbol) → Option Production :=
  fun c => if c = ("S", "a") then some ["S"] else none

/-- All value sets of a map are duplicate-free (true of every Python set). -/
def NVals (fs : Symbol → List Symbol) : Prop := ∀ s, (fs s).Nodup

/-- All value sets of a map draw from a fixed alphabet. -/
def subVals (fs : Symbol → List Symbol) (alph : List Symbol) : Prop :=
  ∀ s, fs s ⊆ alph

/-- Total size of the sets tracked for the listed non-terminals: the
termination measure of both fixed-point loops. -/
def sizeVals (nts : List Symbol) (fs : Symbol → List Symbol) : Nat :=
  (nts.map (fun nt => (fs nt).length)).sum

/-- Invariant carried through one pass of a fixed-point loop, relating the
state `acc` reached mid-pass to the sets `fs0` the pass started from. -/
def PassInv (nts alph : List Symbol) (fs0 : Symbol → List Symbol)
    (acc : (Symbol → List Symbol) × Bool) : Prop :=
  NVals acc.1 ∧ subVals acc.1 alph ∧
    (∀ s, (fs0 s).length ≤ (acc.1 s).length) ∧
    (∀ s, fs0 s ⊆ acc.1 s) ∧
    (acc.2 = false → acc.1 = fs0) ∧
    (acc.2 = true → sizeVals nts fs0 < sizeVals nts acc.1)

section SetLemmas

theorem mem_addS {a : List Symbol} {x y : Symbol} :
    y ∈ addS a x ↔ y ∈ a ∨ y = x := by
  unfold addS
  split
  · next h =>
      constructor
      · exact Or.inl
      · rintro (hy | rfl)
        · exact hy
        · exact h
  · simp [List.mem_append]

theorem subset_addS (a : List Symbol) (x : Symbol) : a ⊆ addS a x :=
  fun _ hy => mem_addS.mpr (Or.inl hy)

theorem mem_unionS {b a : List Symbol} {y : Symbol} :
    y ∈ unionS a b ↔ y ∈ a ∨ y ∈ b := by
  induction b generalizing a with
  | nil => simp [unionS]
  | cons x b ih =>
    show y ∈ unionS (addS a x) b ↔ _
    rw [ih, mem_addS]
    simp only [List.mem_cons]
    tauto

theorem subset_unionS_left (a b : List Symbol) : a ⊆ unionS a b :=
  fun _ hy => mem_unionS.mpr (Or.inl hy)

theorem unionS_subset {a b alph : List Symbol} (ha : a ⊆ alph)
    (hb : b ⊆ alph) : unionS a b ⊆ alph := by
  intro y hy
  rcases mem_unionS.mp hy with h | h
  · exact ha h
  · exact hb h

theorem nodup_addS {a : List Symbol} (h : a.Nodup) (x : Symbol) :
    (addS a x).Nodup := by
  unfold addS
  split
  · exact h
  · next hx =>
      refine List.Nodup.append h (List.nodup_singleton x) ?_
      intro y hy hy'
      rw [List.mem_singleton.mp hy'] at hy
      exact hx hy

theorem nodup_unionS {b a : List Symbol} (h : a.Nodup) :
    (unionS a b).Nodup := by
  induction b generalizing a with
  | nil => exact h
  | cons x b ih => exact ih (nodup_addS h x)

theorem length_addS (a : List Symbol) (x : Symbol) :
    a.length ≤ (addS a x).length := by
  unfold addS
  split
  · exact le_refl _
  · simp

theorem length_le_unionS (b a : List Symbol) :
    a.length ≤ (unionS a b).length := by
  induction b generalizing a with
  | nil => exact le_refl _
  | cons x b ih =>
    exact le_trans (length_addS a x) (ih (addS a x))

theorem length_lt_unionS {b a : List Symbol} (h : ¬ subS b a) :
    a.length < (unionS a b).length := by
  induction b generalizing a with
  | nil => exact absurd (fun x hx => absurd hx (List.not_mem_nil x)) h
  | cons x b ih =>
    show a.length < (unionS (addS a x) b).length
    by_cases hx : x ∈ a
    · have hax : addS a x = a := by simp [addS, hx]
      rw [hax]
      refine ih (fun hsub => h ?_)
      intro y hy
      rcases List.mem_cons.mp hy with rfl | hy
      · exact hx
      · exact hsub y hy
    · have : a.length < (addS a x).length := by simp [addS, hx]
      exact lt_of_lt_of_le this (length_le_unionS b (addS a x))

theorem length_le_of_nodup_subset {a alph : List Symbol} (hn : a.Nodup)
    (hs : a ⊆ alph) : a.length ≤ alph.length := by
  have h1 : a.toFinset.card = a.length := List.toFinset_card_of_nodup hn
  have h2 : a.toFinset ⊆ alph.toFinset := by
    intro x hx
    simp only [List.mem_toFinset] at *
    exact hs hx
  calc a.length = a.toFinset.card := h1.symm
    _ ≤ alph.toFinset.card := Finset.card_le_card h2
    _ ≤ alph.length := alph.toFinset_card_le

end SetLemmas

section FirstSequenceLemmas

/-- C5: the left-to-right scan of `_compute_first_for_sequence` returns
exactly the set described by the spec (empty sequence gives the empty set;
the empty marker or a terminal adds itself and stops; a non-terminal adds
its FIRST set minus the empty marker and continues only when nullable,
contributing the empty marker when a nullable non-terminal is last).  The
only textual difference from the spec's wording is that the source adds a
non-nullable non-terminal's FIRST set without first removing the empty
marker, which is absent from that set in that branch anyway. -/
theorem first_for_sequence_eq_spec (ts : List Symbol)
    (fs : Symbol → List Symbol) (seq : List Symbol) :
    first_for_sequence ts fs seq = spec_first_of_sequence ts fs seq := by
  induction seq with
  | nil => rfl
  | cons s rest ih =>
    unfold first_for_sequence spec_first_of_sequence
    by_cases h1 : s = epsSym
    · simp [h1]
    · by_cases h2 : s ∈ ts
      · simp [h1, h2]
      · by_cases h3 : epsSym ∈ fs s
        · simp only [if_neg h1, if_neg h2, if_pos h3]
          by_cases h4 : rest = []
          · simp [h4]
          · simp [h4, ih]
        · simp [h1, h2, h3, List.erase_of_not_mem h3]

end FirstSequenceLemmas

section ParseStepLemmas

theorem reverse_foldl_push (p rest : List Symbol) :
    p.reverse.foldl (fun st s => s :: st) rest = p ++ rest := by
  induction p generalizing rest with
  | nil => rfl
  | cons s p ih =>
    simp only [List.reverse_cons, List.foldl_append, List.foldl_cons,
      List.foldl_nil, List.cons_append]
    rw [ih]

theorem parse_step_eq_spec (table : (Symbol × Symbol) → Option Production)
    (ts : List Symbol) (top : Symbol) (rest : List Symbol) (cur : Symbol)
    (ptr : Nat) :
    parse_step table ts top rest cur ptr =
      spec_transition table ts top rest cur ptr := by
  unfold parse_step spec_transition
  cases htab : table (top, cur) <;> simp [htab, reverse_foldl_push]

end ParseStepLemmas

section IngestionLemmas

theorem processLine_not_rule {line : String} (h : ¬ isRuleLine line)
    (rules : List (Symbol × List Production)) :
    processLine rules line = rules := by
  unfold isRuleLine at h
  by_cases h1 : stripChars line.data = [] ∨ startsHash (stripChars line.data) = true
  · simp [processLine, h1]
  · have h2 : (splitArrow (stripChars line.data)).length = 1 := by
      by_contra hB
      exact h ⟨h1, hB⟩
    simp [processLine, h1, h2]

/-- C6: when the grammar source contains no production rule line (every
line is blank after stripping, a comment, or lacks the `->` separator),
ingestion fails — `read_grammar` prints the no-production-rules error and
returns no grammar (the spec's `EmptyGrammarError`), so the pipeline cannot
proceed. -/
theorem read_grammar_none_of_no_rules {lines : List String}
    (h : ∀ l ∈ lines, ¬ isRuleLine l) : read_grammar lines = none := by
  have key : ∀ ls : List String, (∀ l ∈ ls, ¬ isRuleLine l) →
      ls.foldl processLine [] = [] := by
    intro ls hls
    induction ls with
    | nil => rfl
    | cons l ls ih =>
      simp only [List.foldl_cons]
      rw [processLine_not_rule (hls l (List.mem_cons_self l ls))]
      exact ih (fun l' hl' => hls l' (List.mem_cons_of_mem l hl'))
  unfold read_grammar
  rw [key lines h]
  rfl

end IngestionLemmas

section FixpointMachinery

theorem foldl_invariant_mem {α σ : Type _} (P : σ → Prop) (f : σ → α → σ)
    (l : List α) (hf : ∀ s a, a ∈ l → P s → P (f s a)) :
    ∀ s, P s → P (l.foldl f s) := by
  induction l with
  | nil => exact fun s hs => hs
  | cons a l ih =>
    intro s hs
    exact ih (fun s' a' ha' hs' => hf s' a' (List.mem_cons_of_mem a ha') hs')
      (f s a) (hf s a (List.mem_cons_self a l) hs)

theorem sizeVals_le {nts : List Symbol} {fs fs' : Symbol → List Symbol}
    (h : ∀ s, (fs s).length ≤ (fs' s).length) :
    sizeVals nts fs ≤ sizeVals nts fs' :=
  List.sum_le_sum (fun nt _ => h nt)

theorem sizeVals_lt {nts : List Symbol} {fs fs' : Symbol → List Symbol}
    {k : Symbol} (hk : k ∈ nts)
    (hle : ∀ s, (fs s).length ≤ (fs' s).length)
    (hlt : (fs k).length < (fs' k).length) :
    sizeVals nts fs < sizeVals nts fs' := by
  induction nts with
  | nil => cases hk
  | cons nt nts ih =>
    simp only [sizeVals, List.map_cons, List.sum_cons] at *
    rcases List.mem_cons.mp hk with rfl | hk'
    · exact Nat.add_lt_add_of_lt_of_le hlt (List.sum_le_sum (fun s _ => hle s))
    · exact Nat.add_lt_add_of_le_of_lt (hle nt) (ih hk')

theorem sizeVals_bound {nts alph : List Symbol} {fs : Symbol → List Symbol}
    (hn : NVals fs) (hs : subVals fs alph) :
    sizeVals nts fs ≤ nts.length * alph.length := by
  induction nts with
  | nil => simp [sizeVals]
  | cons nt nts ih =>
    simp only [sizeVals, List.map_cons, List.sum_cons, List.length_cons,
      Nat.succ_mul] at *
    have h1 := length_le_of_nodup_subset (hn nt) (hs nt)
    omega

theorem tryUpd_inv {nts alph : List Symbol} {fs0 : Symbol → List Symbol}
    {acc : (Symbol → List Symbol) × Bool} {k : Symbol} {add : List Symbol}
    (hk : k ∈ nts) (hadd : add ⊆ alph) (hinv : PassInv nts alph fs0 acc) :
    PassInv nts alph fs0 (tryUpd acc k add) := by
  obtain ⟨hNV, hSub, hLen, hGrow, hFalse, hTrue⟩ := hinv
  unfold tryUpd
  by_cases hss : subS add (acc.1 k)
  · rw [if_pos hss]
    exact ⟨hNV, hSub, hLen, hGrow, hFalse, hTrue⟩
  · rw [if_neg hss]
    have hptle : ∀ s, (acc.1 s).length ≤
        ((Function.update acc.1 k (unionS (acc.1 k) add)) s).length := by
      intro s
      by_cases hsk : s = k
      · subst hsk
        simp only [Function.update_same]
        exact length_le_unionS add (acc.1 s)
      · simp [Function.update_noteq hsk]
    refine ⟨?_, ?_, ?_, ?_, ?_, ?_⟩
    · intro s
      by_cases hsk : s = k
      · subst hsk
        simp only [Function.update_same]
        exact nodup_unionS (hNV s)
      · simpa [Function.update_noteq hsk] using hNV s
    · intro s
      by_cases hsk : s = k
      · subst hsk
        simp only [Function.update_same]
        exact unionS_subset (hSub s) hadd
      · simpa [Function.update_noteq hsk] using hSub s
    · exact fun s => le_trans (hLen s) (hptle s)
    · intro s
      by_cases hsk : s = k
      · subst hsk
        simp only [Function.update_same]
        exact subset_trans (hGrow s) (subset_unionS_left _ _)
      · simpa [Function.update_noteq hsk] using hGrow s
    · intro h
      exact absurd h (by simp)
    · intro _
      cases hb : acc.2 with
      | true =>
        exact lt_of_lt_of_le (hTrue hb) (sizeVals_le hptle)
      | false =>
        have heq : acc.1 = fs0 := hFalse hb
        rw [heq] at hptle hss ⊢
        refine sizeVals_lt hk hptle ?_
        simp only [Function.update_same]
        exact length_lt_unionS hss

end FixpointMachinery

section FirstSeqInvariants

theorem first_for_sequence_subset {ts : List Symbol}
    {fs : Symbol → List Symbol} (h : subVals fs (epsSym :: ts)) :
    ∀ p, first_for_sequence ts fs p ⊆ epsSym :: ts := by
  intro p
  induction p with
  | nil => intro x hx; cases hx
  | cons s rest ih =>
    unfold first_for_sequence
    by_cases h1 : s = epsSym
    · simp only [if_pos h1]
      intro x hx
      rw [List.mem_singleton.mp hx]
      exact List.mem_cons_self _ _
    · by_cases h2 : s ∈ ts
      · simp only [if_neg h1, if_pos h2]
        intro x hx
        rw [List.mem_singleton.mp hx]
        exact List.mem_cons_of_mem _ h2
      · simp only [if_neg h1, if_neg h2]
        by_cases h3 : epsSym ∈ fs s
        · simp only [if_pos h3]
          by_cases h4 : rest = []
          · simp only [if_pos h4]
            intro x hx
            rcases mem_addS.mp hx with hx' | rfl
            · exact h s (List.mem_of_mem_erase hx')
            · exact List.mem_cons_self _ _
          · simp only [if_neg h4]
            exact unionS_subset (fun x hx => h s (List.mem_of_mem_erase hx)) ih
        · simp only [if_neg h3]
          exact h s

theorem first_for_sequence_nodup {ts : List Symbol}
    {fs : Symbol → List Symbol} (h : NVals fs) :
    ∀ p, (first_for_sequence ts fs p).Nodup := by
  intro p
  induction p with
  | nil => exact List.nodup_nil
  | cons s rest ih =>
    unfold first_for_sequence
    by_cases h1 : s = epsSym
    · simp [h1]
    · by_cases h2 : s ∈ ts
      · simp [h1, h2]
      · simp only [if_neg h1, if_neg h2]
        by_cases h3 : epsSym ∈ fs s
        · simp only [if_pos h3]
          by_cases h4 : rest = []
          · simp only [if_pos h4]
            exact nodup_addS ((h s).erase epsSym) epsSym
          · simp only [if_neg h4]
            exact nodup_unionS ((h s).erase epsSym)
        · simp only [if_neg h3]
          exact h s

end FirstSeqInvariants

section PassInvariants

theorem passInv_init (nts alph : List Symbol) {fs0 : Symbol → List Symbol}
    (hn : NVals fs0) (hs : subVals fs0 alph) :
    PassInv nts alph fs0 (fs0, false) := by
  refine ⟨hn, hs, fun s => le_refl _, fun s => List.Subset.refl _, fun _ => rfl, ?_⟩
  intro h
  cases h

theorem first_pass_inv (g : Grammar) (ts : List Symbol)
    {fs0 : Symbol → List Symbol} (hn : NVals fs0)
    (hs : subVals fs0 (epsSym :: ts)) :
    PassInv g.nonTerminals (epsSym :: ts) fs0 (first_pass g ts fs0) := by
  unfold first_pass
  refine foldl_invariant_mem (PassInv g.nonTerminals (epsSym :: ts) fs0) _ _
    ?_ _ (passInv_init _ _ hn hs)
  intro acc nt hnt hacc
  refine foldl_invariant_mem (PassInv g.nonTerminals (epsSym :: ts) fs0) _ _
    ?_ acc hacc
  intro acc' p _ hacc'
  exact tryUpd_inv hnt (first_for_sequence_subset hacc'.2.1 p) hacc'

theorem follow_pass_inv (g : Grammar) (ts : List Symbol)
    {fs : Symbol → List Symbol} (hfn : NVals fs)
    (hfsub : subVals fs (epsSym :: ts))
    {fo0 : Symbol → List Symbol} (hn : NVals fo0)
    (hs : subVals fo0 (endSym :: ts)) :
    PassInv g.nonTerminals (endSym :: ts) fo0 (follow_pass g ts fs fo0) := by
  unfold follow_pass
  refine foldl_invariant_mem (PassInv g.nonTerminals (endSym :: ts) fo0) _ _
    ?_ _ (passInv_init _ _ hn hs)
  intro acc nt hnt hacc
  refine foldl_invariant_mem (PassInv g.nonTerminals (endSym :: ts) fo0) _ _
    ?_ acc hacc
  intro acc' p _ hacc'
  refine foldl_invariant_mem (PassInv g.nonTerminals (endSym :: ts) fo0) _ _
    ?_ acc' hacc'
  intro acc'' iv _ hacc''
  by_cases hmem : iv.2 ∈ g.nonTerminals
  · simp only [if_pos hmem]
    have herase : (first_for_sequence ts fs (p.drop (iv.1 + 1))).erase epsSym
        ⊆ endSym :: ts := by
      intro x hx
      have hnd := @first_for_sequence_nodup ts fs hfn (p.drop (iv.1 + 1))
      rcases hnd.mem_erase_iff.mp hx with ⟨hne, hxin⟩
      rcases List.mem_cons.mp (first_for_sequence_subset hfsub _ hxin) with
        rfl | hxts
      · exact absurd rfl hne
      · exact List.mem_cons_of_mem _ hxts
    have hacc1 := tryUpd_inv hmem herase hacc''
    by_cases hrule2 : epsSym ∈ first_for_sequence ts fs (p.drop (iv.1 + 1))
        ∨ iv.1 = p.length - 1
    · simp only [if_pos hrule2]
      exact tryUpd_inv hmem (hacc1.2.1 nt) hacc1
    · simp only [if_neg hrule2]
      exact hacc1
  · simp only [if_neg hmem]
    exact hacc''

end PassInvariants

section IterLemmas

theorem fixIter_inv (pass : (Symbol → List Symbol) → (Symbol → List Symbol) × Bool)
    (P : (Symbol → List Symbol) → Prop) (hP : ∀ fs, P fs → P (pass fs).1) :
    ∀ n fs, P fs → P (fixIter pass n fs) := by
  intro n
  induction n with
  | zero => exact fun fs h => h
  | succ n ih =>
    intro fs h
    unfold fixIter
    by_cases hb : (pass fs).2
    · simp only [hb, if_true]
      exact ih (pass fs).1 (hP fs h)
    · simp only [hb, if_false]
      exact hP fs h

theorem fixIter_mono (pass : (Symbol → List Symbol) → (Symbol → List Symbol) × Bool)
    (P : (Symbol → List Symbol) → Prop) (hP : ∀ fs, P fs → P (pass fs).1)
    (hmono : ∀ fs, P fs → ∀ s, fs s ⊆ (pass fs).1 s) :
    ∀ n fs, P fs → ∀ s, fs s ⊆ fixIter pass n fs s := by
  intro n
  induction n with
  | zero => exact fun fs _ s => List.Subset.refl _
  | succ n ih =>
    intro fs h s
    unfold fixIter
    by_cases hb : (pass fs).2
    · simp only [hb, if_true]
      exact subset_trans (hmono fs h s) (ih (pass fs).1 (hP fs h) s)
    · simp only [hb, if_false]
      exact hmono fs h s

theorem fixIter_reaches_fix
    (pass : (Symbol → List Symbol) → (Symbol → List Symbol) × Bool)
    (P : (Symbol → List Symbol) → Prop)
    (msr : (Symbol → List Symbol) → Nat) (bound : Nat)
    (hP : ∀ fs, P fs → P (pass fs).1)
    (hfalse : ∀ fs, P fs → (pass fs).2 = false → (pass fs).1 = fs)
    (htrue : ∀ fs, P fs → (pass fs).2 = true → msr fs < msr (pass fs).1)
    (hbound : ∀ fs, P fs → msr fs ≤ bound) :
    ∀ n fs, P fs → bound ≤ msr fs + n →
      (pass (fixIter pass n fs)).2 = false := by
  intro n
  induction n with
  | zero =>
    intro fs h hfuel
    show (pass fs).2 = false
    by_contra hb
    have hb' : (pass fs).2 = true := by
      cases hq : (pass fs).2
      · exact absurd hq hb
      · rfl
    have h1 := htrue fs h hb'
    have h2 := hbound (pass fs).1 (hP fs h)
    omega
  | succ n ih =>
    intro fs h hfuel
    unfold fixIter
    by_cases hb : (pass fs).2
    · simp only [hb, if_true]
      have h1 := htrue fs h hb
      exact ih (pass fs).1 (hP fs h) (by omega)
    · simp only [hb, if_false]
      have hb' : (pass fs).2 = false := by
        cases hq : (pass fs).2
        · rfl
        · exact absurd hq hb
      rw [hfalse fs h hb']
      exact hb'

end IterLemmas

section ComputedSetsInvariants

theorem compute_first_sets_good (g : Grammar) (ts : List Symbol) :
    NVals (compute_first_sets g ts) ∧
      subVals (compute_first_sets g ts) (epsSym :: ts) := by
  unfold compute_first_sets
  refine fixIter_inv _ (fun fs => NVals fs ∧ subVals fs (epsSym :: ts)) ?_ _ _
    ⟨fun s => List.nodup_nil, fun s x hx => absurd hx (List.not_mem_nil x)⟩
  intro fs ⟨hn, hs⟩
  have hinv := first_pass_inv g ts hn hs
  exact ⟨hinv.1, hinv.2.1⟩

/-- The FIRST while-loop reaches quiescence within the allotted fuel: one
more pass over the returned sets reports no change, which is exactly the
exit condition of the Python `while changed:` loop. -/
theorem first_loop_terminates (g : Grammar) (ts : List Symbol) :
    (first_pass g ts (compute_first_sets g ts)).2 = false := by
  unfold compute_first_sets
  refine fixIter_reaches_fix (first_pass g ts)
    (fun fs => NVals fs ∧ subVals fs (epsSym :: ts))
    (sizeVals g.nonTerminals)
    (g.nonTerminals.length * (epsSym :: ts).length)
    ?_ ?_ ?_ ?_ (first_fuel g ts) _
    ⟨fun s => List.nodup_nil, fun s x hx => absurd hx (List.not_mem_nil x)⟩
    ?_
  · intro fs ⟨hn, hs⟩
    have hinv := first_pass_inv g ts hn hs
    exact ⟨hinv.1, hinv.2.1⟩
  · intro fs ⟨hn, hs⟩ hflag
    exact (first_pass_inv g ts hn hs).2.2.2.2.1 hflag
  · intro fs ⟨hn, hs⟩ hflag
    exact (first_pass_inv g ts hn hs).2.2.2.2.2 hflag
  · intro fs ⟨hn, hs⟩
    exact sizeVals_bound hn hs
  · have hz : sizeVals g.nonTerminals (fun _ => ([] : List Symbol)) = 0 := by
      unfold sizeVals
      induction g.nonTerminals with
      | nil => rfl
      | cons nt nts ih => simp [ih]
    rw [hz]
    unfold first_fuel
    simp only [List.length_cons, Nat.zero_add]
    omega

theorem compute_follow_sets_good (g : Grammar) (ts : List Symbol)
    {fs : Symbol → List Symbol} (hfn : NVals fs)
    (hfsub : subVals fs (epsSym :: ts)) :
    NVals (compute_follow_sets g ts fs) ∧
      subVals (compute_follow_sets g ts fs) (endSym :: ts) := by
  unfold compute_follow_sets
  refine fixIter_inv _ (fun fo => NVals fo ∧ subVals fo (endSym :: ts)) ?_ _ _
    ⟨?_, ?_⟩
  · intro fo ⟨hn, hs⟩
    have hinv := follow_pass_inv g ts hfn hfsub hn hs
    exact ⟨hinv.1, hinv.2.1⟩
  · intro s
    by_cases hst : s = g.startSymbol
    · subst hst
      simp [Function.update_same]
    · simp [Function.update_noteq hst]
  · intro s x hx
    by_cases hst : s = g.startSymbol
    · subst hst
      simp only [Function.update_same] at hx
      rw [List.mem_singleton.mp hx]
      exact List.mem_cons_self _ _
    · rw [Function.update_noteq hst] at hx
      cases hx

/-- The FOLLOW while-loop reaches quiescence within the allotted fuel,
provided the FIRST sets it consumes are genuine sets over the alphabet (true
of the pipeline's `compute_first_sets` output). -/
theorem follow_loop_terminates (g : Grammar) (ts : List Symbol)
    {fs : Symbol → List Symbol} (hfn : NVals fs)
    (hfsub : subVals fs (epsSym :: ts)) :
    (follow_pass g ts fs (compute_follow_sets g ts fs)).2 = false := by
  unfold compute_follow_sets
  refine fixIter_reaches_fix (follow_pass g ts fs)
    (fun fo => NVals fo ∧ subVals fo (endSym :: ts))
    (sizeVals g.nonTerminals)
    (g.nonTerminals.length * (endSym :: ts).length)
    ?_ ?_ ?_ ?_ (follow_fuel g ts) _ ⟨?_, ?_⟩ ?_
  · intro fo ⟨hn, hs⟩
    have hinv := follow_pass_inv g ts hfn hfsub hn hs
    exact ⟨hinv.1, hinv.2.1⟩
  · intro fo ⟨hn, hs⟩ hflag
    exact (follow_pass_inv g ts hfn hfsub hn hs).2.2.2.2.1 hflag
  · intro fo ⟨hn, hs⟩ hflag
    exact (follow_pass_inv g ts hfn hfsub hn hs).2.2.2.2.2 hflag
  · intro fo ⟨hn, hs⟩
    exact sizeVals_bound hn hs
  · intro s
    by_cases hst : s = g.startSymbol
    · subst hst
      simp [Function.update_same]
    · simp [Function.update_noteq hst]
  · intro s x hx
    by_cases hst : s = g.startSymbol
    · subst hst
      simp only [Function.update_same] at hx
      rw [List.mem_singleton.mp hx]
      exact List.mem_cons_self _ _
    · rw [Function.update_noteq hst] at hx
      cases hx
  · unfold follow_fuel
    simp only [List.length_cons]
    omega

end ComputedSetsInvariants

section TerminalsLemmas

theorem mem_insSorted {s x : Symbol} : ∀ {l : List Symbol},
    x ∈ insSorted s l ↔ x = s ∨ x ∈ l := by
  intro l
  induction l with
  | nil => simp [insSorted]
  | cons t rest ih =>
    unfold insSorted
    by_cases h : strLeB s t
    · simp [h]
    · simp only [if_neg h, List.mem_cons, ih]
      tauto

theorem mem_sortStrs {x : Symbol} : ∀ {l : List Symbol},
    x ∈ sortStrs l ↔ x ∈ l := by
  intro l
  induction l with
  | nil => simp [sortStrs]
  | cons t rest ih =>
    show x ∈ insSorted t (sortStrs rest) ↔ _
    rw [mem_insSorted]
    simp only [List.mem_cons, ih]

theorem eps_not_mem_find_terminals (g : Grammar) :
    epsSym ∉ find_terminals g := by
  intro hmem
  unfold find_terminals at hmem
  rcases List.mem_append.mp hmem with h | h
  · have hcol : epsSym ∉ g.rules.foldl (fun acc r =>
        r.2.foldl (fun acc p =>
          p.foldl (fun acc s =>
            if s ≠ epsSym ∧ s ∉ g.nonTerminals then addS acc s else acc) acc)
          acc) [] := by
      refine foldl_invariant_mem (fun acc => epsSym ∉ acc) _ _ ?_ _
        (List.not_mem_nil _)
      intro acc r _ hacc
      refine foldl_invariant_mem (fun acc => epsSym ∉ acc) _ _ ?_ _ hacc
      intro acc' p _ hacc'
      refine foldl_invariant_mem (fun acc => epsSym ∉ acc) _ _ ?_ _ hacc'
      intro acc'' s _ hacc''
      by_cases hcond : s ≠ epsSym ∧ s ∉ g.nonTerminals
      · simp only [if_pos hcond]
        intro hx
        rcases mem_addS.mp hx with hx' | hx'
        · exact hacc'' hx'
        · exact hcond.1 hx'.symm
      · simp only [if_neg hcond]
        exact hacc''
    exact hcol (mem_sortStrs.mp h)
  · have : epsSym ≠ endSym := by decide
    exact this (List.mem_singleton.mp h)

theorem endSym_mem_find_terminals (g : Grammar) :
    endSym ∈ find_terminals g := by
  unfold find_terminals
  exact List.mem_append_right _ (List.mem_singleton.mpr rfl)

/-- C7: for every grammar, the FOLLOW sets computed by
`compute_follow_sets` from the pipeline's terminals and FIRST sets contain
only terminals (the terminal list, which includes the end-of-input marker),
never contain the empty marker, and the start symbol's FOLLOW set always
contains the end-of-input marker. -/
theorem follow_sets_props (g : Grammar) :
    (∀ nt, compute_follow_sets g (find_terminals g)
        (compute_first_sets g (find_terminals g)) nt ⊆
        endSym :: find_terminals g) ∧
    (∀ nt, epsSym ∉ compute_follow_sets g (find_terminals g)
        (compute_first_sets g (find_terminals g)) nt) ∧
    endSym ∈ compute_follow_sets g (find_terminals g)
        (compute_first_sets g (find_terminals g)) g.startSymbol := by
  obtain ⟨hfn, hfsub⟩ := compute_first_sets_good g (find_terminals g)
  obtain ⟨hon, hosub⟩ := compute_follow_sets_good g (find_terminals g) hfn hfsub
  refine ⟨fun nt => hosub nt, ?_, ?_⟩
  · intro nt hmem
    rcases List.mem_cons.mp (hosub nt hmem) with h | h
    · exact absurd h (by decide)
    · exact eps_not_mem_find_terminals g h
  · have hseed : endSym ∈
        Function.update (fun _ => ([] : List Symbol)) g.startSymbol [endSym]
          g.startSymbol := by
      simp [Function.update_same]
    unfold compute_follow_sets
    refine fixIter_mono (follow_pass g (find_terminals g)
        (compute_first_sets g (find_terminals g)))
      (fun fo => NVals fo ∧ subVals fo (endSym :: find_terminals g)) ?_ ?_
      (follow_fuel g (find_terminals g)) _ ⟨?_, ?_⟩ _ hseed
    · intro fo ⟨hn, hs⟩
      have hinv := follow_pass_inv g (find_terminals g) hfn hfsub hn hs
      exact ⟨hinv.1, hinv.2.1⟩
    · intro fo ⟨hn, hs⟩ s
      exact (follow_pass_inv g (find_terminals g) hfn hfsub hn hs).2.2.2.1 s
    · intro s
      by_cases hst : s = g.startSymbol
      · subst hst
        simp [Function.update_same]
      · simp [Function.update_noteq hst]
    · intro s x hx
      by_cases hst : s = g.startSymbol
      · subst hst
        simp only [Function.update_same] at hx
        rw [List.mem_singleton.mp hx]
        exact List.mem_cons_self _ _
      · rw [Function.update_noteq hst] at hx
        cases hx

end TerminalsLemmas

section ParseBoundsLemmas

theorem get?_append_endSym : ∀ (l : List Symbol),
    (l ++ [endSym]).get? l.length = some endSym := by
  intro l
  induction l with
  | nil => rfl
  | cons a l ih => exact ih

theorem advance_lt {tokens : List Symbol} {i : Nat} {x : Symbol}
    (hget : (tokens ++ [endSym]).get? i = some x) (hne : x ≠ endSym) :
    i + 1 < (tokens ++ [endSym]).length := by
  have hlen : (tokens ++ [endSym]).length = tokens.length + 1 := by simp
  have hi : i < (tokens ++ [endSym]).length := by
    by_contra hcon
    rw [List.get?_eq_none.mpr (le_of_not_lt hcon)] at hget
    cases hget
  by_contra hcon
  have : i = tokens.length := by omega
  subst this
  rw [get?_append_endSym tokens] at hget
  exact hne (Option.some.inj hget).symm

theorem parse_step_ptr {table : (Symbol × Symbol) → Option Production}
    {ts : List Symbol} {top : Symbol} {rest : List Symbol} {cur : Symbol}
    {ptr : Nat} {st : List Symbol} {p' : Nat} {a : Action}
    (h : parse_step table ts top rest cur ptr = StepRes.goOn st p' a) :
    p' = ptr ∨ (p' = ptr + 1 ∧ cur ≠ endSym) := by
  unfold parse_step at h
  by_cases h1 : top = endSym ∧ cur = endSym
  · rw [if_pos h1] at h
    cases h
  · rw [if_neg h1] at h
    by_cases h2 : top ∈ ts
    · rw [if_pos h2] at h
      by_cases h3 : top = cur
      · rw [if_pos h3] at h
        injection h with _ hp _
        refine Or.inr ⟨hp.symm, ?_⟩
        intro hcur
        exact h1 ⟨h3.trans hcur, hcur⟩
      · rw [if_neg h3] at h
        cases h
    · rw [if_neg h2] at h
      cases htab : table (top, cur) with
      | some p =>
        rw [htab] at h
        injection h with _ hp _
        exact Or.inl hp.symm
      | none =>
        rw [htab] at h
        cases h

theorem parse_loop_no_idxErr (table : (Symbol × Symbol) → Option Production)
    (ts : List Symbol) (tokens : List Symbol) :
    ∀ n stack ptr trace, ptr < (tokens ++ [endSym]).length →
      parse_loop table ts (tokens ++ [endSym]) n stack ptr trace ≠
        ParseOut.idxErr := by
  intro n
  induction n with
  | zero =>
    intro stack ptr trace _ heq
    cases heq
  | succ n ih =>
    intro stack ptr trace hptr
    cases stack with
    | nil => exact fun heq => ParseOut.noConfusion heq
    | cons top rest =>
      obtain ⟨cur, hget⟩ : ∃ c, (tokens ++ [endSym]).get? ptr = some c := by
        cases hg : (tokens ++ [endSym]).get? ptr with
        | none =>
          have := List.get?_eq_none.mp hg
          omega
        | some c => exact ⟨c, rfl⟩
      rw [show parse_loop table ts (tokens ++ [endSym]) (n + 1)
          (top :: rest) ptr trace =
          (match (tokens ++ [endSym]).get? ptr with
           | none => ParseOut.idxErr
           | some cur =>
             match parse_step table ts top rest cur ptr with
             | .halt a acc =>
               ParseOut.finished
                 (trace ++ [⟨top :: rest, (tokens ++ [endSym]).drop ptr, a⟩]) acc
             | .goOn st p' a =>
               parse_loop table ts (tokens ++ [endSym]) n st p'
                 (trace ++ [⟨top :: rest, (tokens ++ [endSym]).drop ptr, a⟩]))
          from rfl, hget]
      show (match parse_step table ts top rest cur ptr with
           | .halt a acc =>
             ParseOut.finished
               (trace ++ [⟨top :: rest, (tokens ++ [endSym]).drop ptr, a⟩]) acc
           | .goOn st p' a =>
             parse_loop table ts (tokens ++ [endSym]) n st p'
               (trace ++ [⟨top :: rest, (tokens ++ [endSym]).drop ptr, a⟩])) ≠
          ParseOut.idxErr
      cases hstep : parse_step table ts top rest cur ptr with
      | halt a acc => exact fun heq => ParseOut.noConfusion heq
      | goOn st p' a =>
        rcases parse_step_ptr hstep with hp | ⟨hp, hne⟩
        · subst hp
          exact ih st p' _ hptr
        · subst hp
          exact ih st (ptr + 1) _ (advance_lt hget hne)

end ParseBoundsLemmas

section DivergenceLemmas

theorem loop_state_repeats : ∀ (n : Nat) (trace : List TraceStep),
    parse_loop loopTable ["a", "$"] ["a", "$"] n ["S", "$"] 0 trace =
      ParseOut.fuelOut := by
  intro n
  induction n with
  | zero => intro trace; rfl
  | succ n ih =>
    intro trace
    exact ih (trace ++ [⟨["S", "$"], ["a", "$"], Action.applyRule "S" ["S"]⟩])

end DivergenceLemmas

section ReplayLemmas

theorem replay_append (e1 e2 : List ((Symbol × Symbol) × Production))
    (acc : ((Symbol × Symbol) → Option Production) × List (Symbol × Symbol)) :
    replayWrites (e1 ++ e2) acc = replayWrites e2 (replayWrites e1 acc) := by
  simp [replayWrites, List.foldl_append]

theorem phase1_replay (nt : Symbol) (p : Production) :
    ∀ (fa : List Symbol)
      (acc : ((Symbol × Symbol) → Option Production) × List (Symbol × Symbol)),
      fa.foldl (fun a t => if t = epsSym then a else assignCell a nt t p) acc =
        replayWrites (fa.filterMap (fun t =>
          if t = epsSym then none else some ((nt, t), p))) acc := by
  intro fa
  induction fa with
  | nil => intro acc; rfl
  | cons t fa ih =>
    intro acc
    by_cases ht : t = epsSym
    · simp only [List.foldl_cons, List.filterMap_cons, if_pos ht]
      exact ih acc
    · simp only [List.foldl_cons, List.filterMap_cons, if_neg ht]
      exact ih (assignCell acc nt t p)

theorem phase2_replay (nt : Symbol) (p : Production) :
    ∀ (l : List Symbol)
      (acc : ((Symbol × Symbol) → Option Production) × List (Symbol × Symbol)),
      l.foldl (fun a t => assignCell a nt t p) acc =
        replayWrites (l.map (fun t => ((nt, t), p))) acc := by
  intro l
  induction l with
  | nil => intro acc; rfl
  | cons t l ih =>
    intro acc
    simp only [List.foldl_cons, List.map_cons]
    exact ih (assignCell acc nt t p)

theorem prod_replay (ts : List Symbol) (fs fo : Symbol → List Symbol)
    (nt : Symbol) (p : Production)
    (acc : ((Symbol × Symbol) → Option Production) × List (Symbol × Symbol)) :
    (let fa := first_for_sequence ts fs p
     let acc1 := fa.foldl (fun a t =>
       if t = epsSym then a else assignCell a nt t p) acc
     if epsSym ∈ fa then (fo nt).foldl (fun a t => assignCell a nt t p) acc1
     else acc1) = replayWrites (prodWrites ts fs fo nt p) acc := by
  simp only [prodWrites]
  by_cases hfa : epsSym ∈ first_for_sequence ts fs p
  · simp only [if_pos hfa, replay_append, phase1_replay, phase2_replay]
  · simp only [if_neg hfa, List.append_nil, phase1_replay]

theorem build_eq_replay (g : Grammar) (ts : List Symbol)
    (fs fo : Symbol → List Symbol) :
    build_parse_table g ts fs fo =
      replayWrites (writeEvents g ts fs fo) ((fun _ => none), []) := by
  unfold build_parse_table writeEvents
  have hrow : ∀ (nt : Symbol) (ps : List Production)
      (acc : ((Symbol × Symbol) → Option Production) × List (Symbol × Symbol)),
      ps.foldl (fun acc p =>
        let fa := first_for_sequence ts fs p
        let acc1 := fa.foldl (fun a t =>
          if t = epsSym then a else assignCell a nt t p) acc
        if epsSym ∈ fa then (fo nt).foldl (fun a t => assignCell a nt t p) acc1
        else acc1) acc =
      replayWrites (ps.flatMap (fun p => prodWrites ts fs fo nt p)) acc := by
    intro nt ps
    induction ps with
    | nil => intro acc; rfl
    | cons p ps ih =>
      intro acc
      simp only [List.foldl_cons, List.flatMap_cons, replay_append]
      rw [← prod_replay ts fs fo nt p acc]
      exact ih _
  have hall : ∀ (nts : List Symbol)
      (acc : ((Symbol × Symbol) → Option Production) × List (Symbol × Symbol)),
      nts.foldl (fun acc nt =>
        (g.prods nt).foldl (fun acc p =>
          let fa := first_for_sequence ts fs p
          let acc1 := fa.foldl (fun a t =>
            if t = epsSym then a else assignCell a nt t p) acc
          if epsSym ∈ fa then
            (fo nt).foldl (fun a t => assignCell a nt t p) acc1
          else acc1) acc) acc =
      replayWrites (nts.flatMap (fun nt =>
        (g.prods nt).flatMap (fun p => prodWrites ts fs fo nt p))) acc := by
    intro nts
    induction nts with
    | nil => intro acc; rfl
    | cons nt nts ih =>
      intro acc
      simp only [List.foldl_cons, List.flatMap_cons, replay_append]
      rw [← hrow nt (g.prods nt) acc]
      exact ih _
  exact hall g.nonTerminals _

theorem writesTo_nil (c : Symbol × Symbol) : writesTo [] c = [] := rfl

theorem writesTo_cons (e : (Symbol × Symbol) × Production)
    (evs : List ((Symbol × Symbol) × Production)) (c : Symbol × Symbol) :
    writesTo (e :: evs) c =
      (if e.1 = c then [e.2] else []) ++ writesTo evs c := by
  unfold writesTo
  by_cases he : e.1 = c
  · simp [List.filterMap_cons, he]
  · simp [List.filterMap_cons, he]

theorem writesTo_append (e1 e2 : List ((Symbol × Symbol) × Production))
    (c : Symbol × Symbol) :
    writesTo (e1 ++ e2) c = writesTo e1 c ++ writesTo e2 c := by
  simp [writesTo, List.filterMap_append]

theorem writesTo_flatMap {α : Type _} (l : List α)
    (f : α → List ((Symbol × Symbol) × Production)) (c : Symbol × Symbol) :
    writesTo (l.flatMap f) c = l.flatMap (fun x => writesTo (f x) c) := by
  induction l with
  | nil => rfl
  | cons x l ih =>
    simp only [List.flatMap_cons, writesTo_append, ih]

theorem writesTo_empty_of_ne {evs : List ((Symbol × Symbol) × Production)}
    {c : Symbol × Symbol} (h : ∀ e ∈ evs, e.1 ≠ c) : writesTo evs c = [] := by
  unfold writesTo
  rw [List.filterMap_eq_nil_iff]
  intro e he
  simp [h e he]

theorem replay_fst (c : Symbol × Symbol) :
    ∀ (evs : List ((Symbol × Symbol) × Production))
      (acc : ((Symbol × Symbol) → Option Production) × List (Symbol × Symbol)),
      (replayWrites evs acc).1 c =
        (writesTo evs c).foldl (fun _ p => some p) (acc.1 c) := by
  intro evs
  induction evs with
  | nil => intro acc; rfl
  | cons e evs ih =>
    intro acc
    obtain ⟨⟨nt, t⟩, p⟩ := e
    show (replayWrites evs (assignCell acc nt t p)).1 c = _
    rw [ih (assignCell acc nt t p), writesTo_cons]
    by_cases he : ((nt, t) : Symbol × Symbol) = c
    · subst he
      have h1 : (assignCell acc nt t p).1 (nt, t) = some p := by
        simp [assignCell, Function.update_same]
      rw [h1]
      simp
    · have h1 : (assignCell acc nt t p).1 c = acc.1 c := by
        simp [assignCell, Function.update_noteq (fun h => he h.symm)]
      rw [h1]
      simp [if_neg he]

theorem foldl_some_getLast :
    ∀ (l : List Production) (i : Option Production), l ≠ [] →
      l.foldl (fun _ p => some p) i = l.getLast? := by
  intro l
  induction l with
  | nil => intro i h; exact absurd rfl h
  | cons p l ih =>
    intro i _
    cases l with
    | nil => rfl
    | cons q l' =>
      show (q :: l').foldl (fun _ p => some p) (some p) = _
      rw [ih (some p) (List.cons_ne_nil q l'), List.getLast?_cons_cons]

theorem replay_snd (c : Symbol × Symbol) :
    ∀ (evs : List ((Symbol × Symbol) × Production))
      (acc : ((Symbol × Symbol) → Option Production) × List (Symbol × Symbol)),
      c ∈ (replayWrites evs acc).2 ↔
        c ∈ acc.2 ∨ ((acc.1 c).isSome = true ∧ writesTo evs c ≠ []) ∨
          2 ≤ (writesTo evs c).length := by
  intro evs
  induction evs with
  | nil =>
    intro acc
    simp [replayWrites, writesTo_nil]
  | cons e evs ih =>
    intro acc
    obtain ⟨⟨nt, t⟩, p⟩ := e
    show c ∈ (replayWrites evs (assignCell acc nt t p)).2 ↔ _
    rw [ih (assignCell acc nt t p), writesTo_cons]
    by_cases he : ((nt, t) : Symbol × Symbol) = c
    · subst he
      have h1 : (assignCell acc nt t p).1 (nt, t) = some p := by
        simp [assignCell, Function.update_same]
      have h2 : (nt, t) ∈ (assignCell acc nt t p).2 ↔
          (nt, t) ∈ acc.2 ∨ (acc.1 (nt, t)).isSome = true := by
        unfold assignCell
        by_cases hs : (acc.1 (nt, t)).isSome = true
        · simp [hs]
        · simp [hs]
      rw [h1, h2]
      have hcons : ((if ((nt, t) : Symbol × Symbol) = (nt, t) then [p] else [])
          ++ writesTo evs (nt, t)) = p :: writesTo evs (nt, t) := by simp
      rw [hcons]
      have hlp : writesTo evs (nt, t) ≠ [] ↔
          0 < (writesTo evs (nt, t)).length := List.length_pos.symm
      constructor
      · rintro ((hin | hsome) | ⟨_, hne⟩ | hlen)
        · exact Or.inl hin
        · exact Or.inr (Or.inl ⟨hsome, List.cons_ne_nil _ _⟩)
        · have h3 := hlp.mp hne
          refine Or.inr (Or.inr ?_)
          simp only [List.length_cons]
          omega
        · refine Or.inr (Or.inr ?_)
          simp only [List.length_cons]
          omega
      · rintro (hin | ⟨hsome, _⟩ | hlen)
        · exact Or.inl (Or.inl hin)
        · exact Or.inl (Or.inr hsome)
        · simp only [List.length_cons] at hlen
          by_cases hz : writesTo evs (nt, t) = []
          · rw [hz] at hlen
            simp at hlen
          · exact Or.inr (Or.inl ⟨rfl, hz⟩)
    · have h1 : (assignCell acc nt t p).1 c = acc.1 c := by
        simp [assignCell, Function.update_noteq (fun h => he h.symm)]
      have h2 : c ∈ (assignCell acc nt t p).2 ↔ c ∈ acc.2 := by
        unfold assignCell
        by_cases hs : (acc.1 (nt, t)).isSome = true
        · simp only [hs, if_true, List.mem_append, List.mem_singleton]
          constructor
          · rintro (hin | hc)
            · exact hin
            · exact absurd hc.symm he
          · exact Or.inl
        · simp [hs]
      rw [h1, h2]
      simp [if_neg he]

theorem build_conflict_iff (g : Grammar) (ts : List Symbol)
    (fs fo : Symbol → List Symbol) (c : Symbol × Symbol) :
    c ∈ (build_parse_table g ts fs fo).2 ↔
      2 ≤ (writesTo (writeEvents g ts fs fo) c).length := by
  rw [build_eq_replay, replay_snd]
  simp

theorem build_table_last (g : Grammar) (ts : List Symbol)
    (fs fo : Symbol → List Symbol) (c : Symbol × Symbol)
    (h : writesTo (writeEvents g ts fs fo) c ≠ []) :
    (build_parse_table g ts fs fo).1 c =
      (writesTo (writeEvents g ts fs fo) c).getLast? := by
  rw [build_eq_replay, replay_fst, foldl_some_getLast _ _ h]

end ReplayLemmas

section CountingLemmas

theorem writesTo_phase1 (A t : Symbol) (p : Production) :
    ∀ {fa : List Symbol}, fa.Nodup →
      writesTo (fa.filterMap (fun u =>
          if u = epsSym then none else some ((A, u), p))) (A, t) =
        if t ∈ fa ∧ t ≠ epsSym then [p] else [] := by
  intro fa
  induction fa with
  | nil => intro; simp [writesTo_nil]
  | cons u fa ih =>
    intro hnd
    have hnd' : fa.Nodup := hnd.of_cons
    have hu : u ∉ fa := (List.nodup_cons.mp hnd).1
    by_cases hue : u = epsSym
    · rw [List.filterMap_cons, if_pos hue, ih hnd']
      subst hue
      by_cases htm : t ∈ fa ∧ t ≠ epsSym
      · rw [if_pos htm, if_pos ⟨List.mem_cons_of_mem _ htm.1, htm.2⟩]
      · rw [if_neg htm, if_neg ?_]
        rintro ⟨hmem, hne⟩
        rcases List.mem_cons.mp hmem with rfl | hmem'
        · exact hne rfl
        · exact htm ⟨hmem', hne⟩
    · rw [List.filterMap_cons, if_neg hue, writesTo_cons, ih hnd']
      by_cases hut : u = t
      · subst hut
        have h1 : (if ((A, u) : Symbol × Symbol) = (A, u) then [p]
            else ([] : List Production)) = [p] := if_pos rfl
        have h2 : (if u ∈ fa ∧ u ≠ epsSym then [p]
            else ([] : List Production)) = [] := if_neg (fun h => hu h.1)
        have h3 : (if u ∈ u :: fa ∧ u ≠ epsSym then [p]
            else ([] : List Production)) = [p] :=
          if_pos ⟨List.mem_cons_self _ _, hue⟩
        rw [h1, h2, h3, List.append_nil]
      · have hcell : ¬ (((A, u) : Symbol × Symbol) = (A, t)) := by
          intro h
          exact hut (congrArg Prod.snd h)
        have h1 : (if ((A, u) : Symbol × Symbol) = (A, t) then [p]
            else ([] : List Production)) = [] := if_neg hcell
        rw [h1, List.nil_append]
        have hmemiff : (t ∈ u :: fa ∧ t ≠ epsSym) ↔ (t ∈ fa ∧ t ≠ epsSym) := by
          constructor
          · rintro ⟨hmem, hne⟩
            rcases List.mem_cons.mp hmem with rfl | hmem'
            · exact absurd rfl hut
            · exact ⟨hmem', hne⟩
          · rintro ⟨hmem, hne⟩
            exact ⟨List.mem_cons_of_mem _ hmem, hne⟩
        by_cases htm : t ∈ fa ∧ t ≠ epsSym
        · rw [if_pos htm, if_pos (hmemiff.mpr htm)]
        · rw [if_neg htm, if_neg (fun h => htm (hmemiff.mp h))]

theorem writesTo_phase2 (A t : Symbol) (p : Production) :
    ∀ {l : List Symbol}, l.Nodup →
      writesTo (l.map (fun u => ((A, u), p))) (A, t) =
        if t ∈ l then [p] else [] := by
  intro l
  induction l with
  | nil => intro; simp [writesTo_nil]
  | cons u l ih =>
    intro hnd
    have hnd' : l.Nodup := hnd.of_cons
    have hu : u ∉ l := (List.nodup_cons.mp hnd).1
    rw [List.map_cons, writesTo_cons, ih hnd']
    by_cases hut : u = t
    · subst hut
      rw [if_pos rfl, if_neg hu, if_pos (List.mem_cons_self _ _)]
      simp
    · have hcell : ¬ (((A, u) : Symbol × Symbol) = (A, t)) := by
        intro h
        exact hut (congrArg Prod.snd h)
      rw [if_neg hcell]
      by_cases htm : t ∈ l
      · rw [if_pos htm, if_pos (List.mem_cons_of_mem _ htm)]
        simp
      · rw [if_neg htm, if_neg ?_]
        · simp
        · intro hmem
          rcases List.mem_cons.mp hmem with rfl | hmem'
          · exact hut rfl
          · exact htm hmem'

theorem writesTo_prodWrites (ts : List Symbol) (fs fo : Symbol → List Symbol)
    (A t : Symbol) (p : Production)
    (hfa : (first_for_sequence ts fs p).Nodup) (hfo : (fo A).Nodup) :
    writesTo (prodWrites ts fs fo A p) (A, t) =
      (if t ∈ first_for_sequence ts fs p ∧ t ≠ epsSym then [p] else []) ++
      (if epsSym ∈ first_for_sequence ts fs p ∧ t ∈ fo A then [p] else []) := by
  unfold prodWrites
  rw [writesTo_append, writesTo_phase1 A t p hfa]
  congr 1
  by_cases heps : epsSym ∈ first_for_sequence ts fs p
  · rw [if_pos heps, writesTo_phase2 A t p hfo]
    by_cases htm : t ∈ fo A
    · rw [if_pos htm, if_pos ⟨heps, htm⟩]
    · rw [if_neg htm, if_neg (fun h => htm h.2)]
  · rw [if_neg heps, if_neg (fun h => heps h.1)]
    rfl

theorem prodWrites_cells (ts : List Symbol) (fs fo : Symbol → List Symbol)
    (nt : Symbol) (p : Production) :
    ∀ e ∈ prodWrites ts fs fo nt p, e.1.1 = nt := by
  intro e he
  unfold prodWrites at he
  rcases List.mem_append.mp he with h | h
  · obtain ⟨u, _, hu⟩ := List.mem_filterMap.mp h
    by_cases hue : u = epsSym
    · rw [if_pos hue] at hu
      cases hu
    · rw [if_neg hue] at hu
      rw [← Option.some.inj hu]
  · by_cases heps : epsSym ∈ first_for_sequence ts fs p
    · rw [if_pos heps] at h
      obtain ⟨u, _, hu⟩ := List.mem_map.mp h
      rw [← hu]
    · rw [if_neg heps] at h
      cases h

theorem row_writes_empty (ts : List Symbol) (fs fo : Symbol → List Symbol)
    {nt A t : Symbol} (hne : nt ≠ A) (ps : List Production) :
    writesTo (ps.flatMap (fun p => prodWrites ts fs fo nt p)) (A, t) = [] := by
  refine writesTo_empty_of_ne ?_
  intro e he
  obtain ⟨p, _, hp⟩ := List.mem_flatMap.mp he
  have hcells := prodWrites_cells ts fs fo nt p e hp
  intro hc
  rw [hc] at hcells
  exact hne hcells.symm

theorem sum_le_one_of_pairwise {ps : List Production} {f : Production → Nat}
    (hone : ∀ p ∈ ps, f p ≤ 1)
    (hpair : ps.Pairwise (fun p q => f p = 0 ∨ f q = 0)) :
    (ps.map f).sum ≤ 1 := by
  induction ps with
  | nil => simp
  | cons p ps ih =>
    rcases List.pairwise_cons.mp hpair with ⟨hhead, htail⟩
    simp only [List.map_cons, List.sum_cons]
    by_cases hz : f p = 0
    · rw [hz]
      simpa using ih (fun q hq => hone q (List.mem_cons_of_mem _ hq)) htail
    · have hrest : (ps.map f).sum = 0 := by
        rw [List.sum_eq_zero]
        intro x hx
        obtain ⟨q, hq, hqx⟩ := List.mem_map.mp hx
        rcases hhead q hq with h0 | h0
        · exact absurd h0 hz
        · rw [← hqx, h0]
      rw [hrest]
      have := hone p (List.mem_cons_self _ _)
      omega

theorem sum_indicator_le_one {A : Symbol} {f : Symbol → Nat} :
    ∀ {nts : List Symbol}, nts.Nodup →
      (∀ nt ∈ nts, f nt ≤ if nt = A then 1 else 0) → (nts.map f).sum ≤ 1 := by
  intro nts
  induction nts with
  | nil => simp
  | cons nt nts ih =>
    intro hnd hb
    have hnd' : nts.Nodup := hnd.of_cons
    simp only [List.map_cons, List.sum_cons]
    by_cases hA : nt = A
    · subst hA
      have hrest : (nts.map f).sum = 0 := by
        rw [List.sum_eq_zero]
        intro x hx
        obtain ⟨nt', hnt', hx'⟩ := List.mem_map.mp hx
        have hb' := hb nt' (List.mem_cons_of_mem _ hnt')
        have hne : nt' ≠ nt := fun h =>
          (List.nodup_cons.mp hnd).1 (h ▸ hnt')
        rw [if_neg hne] at hb'
        omega
      have h1 := hb nt (List.mem_cons_self _ _)
      rw [if_pos rfl] at h1
      omega
    · have h1 := hb nt (List.mem_cons_self _ _)
      rw [if_neg hA] at h1
      have h2 := ih hnd' (fun nt' h => hb nt' (List.mem_cons_of_mem _ h))
      omega

/-- Core of C4 (amended): with duplicate-free value sets, pairwise-disjoint
FIRST sets across the alternatives of each non-terminal, and, whenever a
non-terminal has a nullable alternative, no alternative's FIRST set meeting
that non-terminal's FOLLOW set, `build_parse_table` reports no conflict. -/
theorem build_no_conflicts (g : Grammar) (ts : List Symbol)
    (fs fo : Symbol → List Symbol)
    (hfsN : NVals fs) (hfoN : NVals fo)
    (hnd : g.nonTerminals.Nodup)
    (hff : ∀ A ∈ g.nonTerminals, (g.prods A).Pairwise (fun p q =>
      ∀ u ∈ first_for_sequence ts fs p, u ∉ first_for_sequence ts fs q))
    (hfo : ∀ A ∈ g.nonTerminals,
      (∃ q ∈ g.prods A, epsSym ∈ first_for_sequence ts fs q) →
      ∀ p ∈ g.prods A, ∀ u ∈ first_for_sequence ts fs p,
        u ≠ epsSym → u ∉ fo A) :
    (build_parse_table g ts fs fo).2 = [] := by
  rw [List.eq_nil_iff_forall_not_mem]
  intro c
  rw [build_conflict_iff]
  obtain ⟨A, t⟩ := c
  unfold writeEvents
  rw [writesTo_flatMap, List.length_flatMap]
  simp only [Function.comp_def]
  have hchar : ∀ p,
      0 < (writesTo (prodWrites ts fs fo A p) (A, t)).length →
      (t ∈ first_for_sequence ts fs p ∧ t ≠ epsSym) ∨
        (epsSym ∈ first_for_sequence ts fs p ∧ t ∈ fo A) := by
    intro p hpos
    rw [writesTo_prodWrites ts fs fo A t p
      (first_for_sequence_nodup hfsN p) (hfoN A)] at hpos
    by_cases h1 : t ∈ first_for_sequence ts fs p ∧ t ≠ epsSym
    · exact Or.inl h1
    · rw [if_neg h1, List.nil_append] at hpos
      by_cases h2 : epsSym ∈ first_for_sequence ts fs p ∧ t ∈ fo A
      · exact Or.inr h2
      · rw [if_neg h2] at hpos
        cases hpos
  have hrow : ∀ nt ∈ g.nonTerminals,
      (writesTo ((g.prods nt).flatMap (fun p => prodWrites ts fs fo nt p))
        (A, t)).length ≤ if nt = A then 1 else 0 := by
    intro nt hnt
    by_cases hA : nt = A
    · subst hA
      rw [if_pos rfl, writesTo_flatMap, List.length_flatMap]
      simp only [Function.comp_def]
      refine sum_le_one_of_pairwise ?_ ?_
      · intro p hp
        rw [writesTo_prodWrites ts fs fo nt t p
          (first_for_sequence_nodup hfsN p) (hfoN nt)]
        by_cases h1 : t ∈ first_for_sequence ts fs p ∧ t ≠ epsSym
        · by_cases h2 : epsSym ∈ first_for_sequence ts fs p ∧ t ∈ fo nt
          · exact absurd h2.2
              (hfo nt hnt ⟨p, hp, h2.1⟩ p hp t h1.1 h1.2)
          · rw [if_pos h1, if_neg h2]
            simp
        · rw [if_neg h1, List.nil_append]
          by_cases h2 : epsSym ∈ first_for_sequence ts fs p ∧ t ∈ fo nt
          · rw [if_pos h2]
            simp
          · rw [if_neg h2]
            simp
      · refine List.Pairwise.imp_of_mem ?_ (hff nt hnt)
        intro p q hp hq hdis
        by_contra hboth
        push_neg at hboth
        obtain ⟨hp0, hq0⟩ := hboth
        have hppos := hchar p (Nat.pos_of_ne_zero hp0)
        have hqpos := hchar q (Nat.pos_of_ne_zero hq0)
        rcases hppos with ⟨htp, hne⟩ | ⟨hep, htfo⟩
        · rcases hqpos with ⟨htq, hne'⟩ | ⟨heq, htfo⟩
          · exact hdis t htp htq
          · exact hfo nt hnt ⟨q, hq, heq⟩ p hp t htp hne htfo
        · rcases hqpos with ⟨htq, hne'⟩ | ⟨heq, htfo'⟩
          · exact hfo nt hnt ⟨p, hp, hep⟩ q hq t htq hne' htfo
          · exact hdis epsSym hep heq
    · rw [if_neg hA, row_writes_empty ts fs fo hA (g.prods nt)]
      simp
  have hsum := sum_indicator_le_one hnd hrow
  omega

end CountingLemmas

section Claims

/-- C1 (counterexample): on the grammar `S -> a | a b` the cell `(S, a)` is
populated twice — first by `S -> a`, then by `S -> a b` — and a conflict is
reported for it, but the cell retains the production `a b`, the last one
assigned, not the first-assigned `a` as the claim states: the source warns
and then overwrites the cell unconditionally. -/
theorem keep_first_policy_refuted :
    ("S", "a") ∈ (pipelineTable gAmb).2 ∧
    writesTo (writeEvents gAmb (find_terminals gAmb) (pipelineFirst gAmb)
      (pipelineFollow gAmb)) ("S", "a") = [["a"], ["a", "b"]] ∧
    (pipelineTable gAmb).1 ("S", "a") = some ["a", "b"] ∧
    (["a", "b"] : Production) ≠ ["a"] := by
  refine ⟨by decide, by decide, by decide, by decide⟩

/-- C1 (amended): for every grammar and every parse-table cell assigned two
or more times during table construction, `build_parse_table` surfaces a
conflict diagnostic for that cell, and the cell retains the LAST-assigned
production (the last production registered wins). -/
theorem conflict_cell_keeps_last_assigned (g : Grammar) (ts : List Symbol)
    (fs fo : Symbol → List Symbol) (c : Symbol × Symbol)
    (h : 2 ≤ (writesTo (writeEvents g ts fs fo) c).length) :
    c ∈ (build_parse_table g ts fs fo).2 ∧
      (build_parse_table g ts fs fo).1 c =
        (writesTo (writeEvents g ts fs fo) c).getLast? := by
  refine ⟨(build_conflict_iff g ts fs fo c).mpr h, build_table_last g ts fs fo c ?_⟩
  intro hnil
  rw [hnil] at h
  simp at h

theorem conflict_cell_keeps_last_assigned_witness :
    2 ≤ (writesTo (writeEvents gAmb (find_terminals gAmb) (pipelineFirst gAmb)
      (pipelineFollow gAmb)) ("S", "a")).length ∧
    (("S", "a") ∈ (build_parse_table gAmb (find_terminals gAmb)
        (pipelineFirst gAmb) (pipelineFollow gAmb)).2 ∧
      (build_parse_table gAmb (find_terminals gAmb) (pipelineFirst gAmb)
          (pipelineFollow gAmb)).1 ("S", "a") =
        (writesTo (writeEvents gAmb (find_terminals gAmb) (pipelineFirst gAmb)
          (pipelineFollow gAmb)) ("S", "a")).getLast?) :=
  ⟨by decide, conflict_cell_keeps_last_assigned gAmb (find_terminals gAmb)
    (pipelineFirst gAmb) (pipelineFollow gAmb) ("S", "a") (by decide)⟩

/-- C2: every step of `parse_input` follows the specified transition
relation — accept when the end marker is on top of the stack and is the
current token; on a terminal top, pop and advance exactly on a match and
halt in the token-mismatch error state otherwise; on a non-terminal top,
pop and push the looked-up production in reverse order (nothing for the
empty-marker production) and halt in the no-applicable-rule error state
when the cell is empty — and the run starts with stack `[$; start]`
(bottom to top) and the end marker appended to the input. -/
theorem parse_machine_matches_spec :
    (∀ (table : (Symbol × Symbol) → Option Production) (ts : List Symbol)
      (top : Symbol) (rest : List Symbol) (cur : Symbol) (ptr : Nat),
      parse_step table ts top rest cur ptr =
        spec_transition table ts top rest cur ptr) ∧
    (∀ (table : (Symbol × Symbol) → Option Production) (ts : List Symbol)
      (start : Symbol) (tokens : List Symbol) (fuel : Nat),
      parse_input table ts start tokens fuel =
        parse_loop table ts (tokens ++ [endSym]) fuel [start, endSym] 0 []) :=
  ⟨parse_step_eq_spec, fun _ _ _ _ _ => rfl⟩

/-- C3 (amended): the FIRST and FOLLOW fixed-point loops terminate on every
grammar — one further pass over the computed sets reports no change, which
is the loop's exit condition — but the implementation has no bound on total
iterations and surfaces no fatal error, and `parse_input` does not halt on
every parse-table and token sequence (see the counterexample). -/
theorem fixpoint_loops_terminate (g : Grammar) :
    (first_pass g (find_terminals g) (pipelineFirst g)).2 = false ∧
    (follow_pass g (find_terminals g) (pipelineFirst g)
      (pipelineFollow g)).2 = false := by
  obtain ⟨hfn, hfsub⟩ := compute_first_sets_good g (find_terminals g)
  exact ⟨first_loop_terminates g (find_terminals g),
    follow_loop_terminates g (find_terminals g) hfn hfsub⟩

/-- C3 (counterexample): `parse_input` loops forever on the one-entry table
`(S, a) ↦ S` with input `a`: the stack `[S, $]` and the pointer never
change, so the loop body repeats identically and the fueled rendering runs
out for every fuel bound — with no defensive iteration bound or fatal
error in the implementation to stop it. -/
theorem parse_input_can_diverge :
    parseDiverges loopTable ["a", "$"] "S" ["a"] := by
  intro fuel
  exact loop_state_repeats fuel []

/-- C4 (counterexample): the grammar `S -> A a`, `A -> a | ε` satisfies the
claimed conditions — distinct alternatives of each non-terminal have
disjoint FIRST sets, and no nullable alternative's FIRST set meets its
non-terminal's FOLLOW set — yet `build_parse_table` reports a conflict at
`(A, a)`: production `A -> a` fills the cell from FIRST and the nullable
`A -> ε` fills it again from FOLLOW(A) = set containing a. -/
theorem claimed_overlap_condition_refuted :
    (∀ nt ∈ gOverlap.nonTerminals, (gOverlap.prods nt).Pairwise (fun p q =>
      ∀ u ∈ first_for_sequence (find_terminals gOverlap)
          (pipelineFirst gOverlap) p,
        u ∉ first_for_sequence (find_terminals gOverlap)
          (pipelineFirst gOverlap) q)) ∧
    (∀ nt ∈ gOverlap.nonTerminals, ∀ p ∈ gOverlap.prods nt,
      epsSym ∈ first_for_sequence (find_terminals gOverlap)
        (pipelineFirst gOverlap) p →
      ∀ u ∈ first_for_sequence (find_terminals gOverlap)
        (pipelineFirst gOverlap) p,
        u ≠ epsSym → u ∉ pipelineFollow gOverlap nt) ∧
    (pipelineTable gOverlap).2 = [("A", "a")] := by
  refine ⟨by decide, by decide, by decide⟩

/-- C4 (amended): for every grammar with duplicate-free non-terminal list in
which distinct alternatives of each non-terminal have disjoint FIRST sets
and in which, whenever some alternative of a non-terminal is nullable, no
alternative's FIRST set meets that non-terminal's FOLLOW set,
`build_parse_table` emits zero conflict diagnostics.  (The counterexample
forces strengthening the FIRST/FOLLOW condition from the nullable
alternative's own FIRST set to the FIRST set of every sibling
alternative.) -/
theorem disjoint_ll1_conditions_give_no_conflicts (g : Grammar)
    (hnd : g.nonTerminals.Nodup)
    (hff : ∀ A ∈ g.nonTerminals, (g.prods A).Pairwise (fun p q =>
      ∀ u ∈ first_for_sequence (find_terminals g) (pipelineFirst g) p,
        u ∉ first_for_sequence (find_terminals g) (pipelineFirst g) q))
    (hfo : ∀ A ∈ g.nonTerminals,
      (∃ q ∈ g.prods A, epsSym ∈ first_for_sequence (find_terminals g)
        (pipelineFirst g) q) →
      ∀ p ∈ g.prods A, ∀ u ∈ first_for_sequence (find_terminals g)
        (pipelineFirst g) p, u ≠ epsSym → u ∉ pipelineFollow g A) :
    (pipelineTable g).2 = [] := by
  obtain ⟨hfsN, hfsSub⟩ := compute_first_sets_good g (find_terminals g)
  obtain ⟨hfoN, _⟩ := compute_follow_sets_good g (find_terminals g) hfsN hfsSub
  exact build_no_conflicts g (find_terminals g) (pipelineFirst g)
    (pipelineFollow g) hfsN hfoN hnd hff hfo

theorem disjoint_ll1_conditions_give_no_conflicts_witness :
    gNullOk.nonTerminals.Nodup ∧
    (∀ A ∈ gNullOk.nonTerminals, (gNullOk.prods A).Pairwise (fun p q =>
      ∀ u ∈ first_for_sequence (find_terminals gNullOk)
          (pipelineFirst gNullOk) p,
        u ∉ first_for_sequence (find_terminals gNullOk)
          (pipelineFirst gNullOk) q)) ∧
    (∀ A ∈ gNullOk.nonTerminals,
      (∃ q ∈ gNullOk.prods A, epsSym ∈ first_for_sequence
        (find_terminals gNullOk) (pipelineFirst gNullOk) q) →
      ∀ p ∈ gNullOk.prods A, ∀ u ∈ first_for_sequence (find_terminals gNullOk)
        (pipelineFirst gNullOk) p, u ≠ epsSym →
        u ∉ pipelineFollow gNullOk A) ∧
    (pipelineTable gNullOk).2 = [] :=
  ⟨by decide, by decide, by decide,
    disjoint_ll1_conditions_give_no_conflicts gNullOk (by decide) (by decide)
      (by decide)⟩

theorem read_grammar_none_of_no_rules_witness :
    (∀ l ∈ ["# grammar of nothing", "   ", "no separator here"],
      ¬ isRuleLine l) ∧
    read_grammar ["# grammar of nothing", "   ", "no separator here"] =
      none :=
  ⟨by decide, read_grammar_none_of_no_rules (by decide)⟩

/-- C8: on the ambiguous grammar `S -> a | a b`, `build_parse_table` reports
a conflict at the cell `(S, a)`. -/
theorem ambiguous_grammar_conflict_reported :
    ("S", "a") ∈ (pipelineTable gAmb).2 := by decide

/-- C9: the `compute_first_sets` method run twice from the same grammar
yields identical FIRST sets: it reinitializes `self.first_sets` from scratch
and recomputes deterministically from `self.grammar` and `self.terminals`,
which it does not modify, so the second run reproduces the first; moreover
the computed sets are an idempotent fixed point — one further full pass
maps them to themselves. -/
theorem compute_first_sets_idempotent :
    (∀ st : ParserState,
      computeFirstSetsM (computeFirstSetsM st) = computeFirstSetsM st) ∧
    (∀ (g : Grammar) (ts : List Symbol),
      (first_pass g ts (compute_first_sets g ts)).1 =
        compute_first_sets g ts) := by
  refine ⟨fun _ => rfl, ?_⟩
  intro g ts
  obtain ⟨hn, hs⟩ := compute_first_sets_good g ts
  exact (first_pass_inv g ts hn hs).2.2.2.2.1 (first_loop_terminates g ts)

/-- C10: every input access of `parse_input` is in bounds: with the end
marker appended to the token list, the pointer only advances past positions
holding a non-end token, so `input_string[pointer]` succeeds in every
iteration and the out-of-bounds outcome is unreachable for every table,
terminal list, start symbol, token sequence and fuel. -/
theorem parse_input_no_index_error
    (table : (Symbol × Symbol) → Option Production) (ts : List Symbol)
    (start : Symbol) (tokens : List Symbol) (fuel : Nat) :
    parse_input table ts start tokens fuel ≠ ParseOut.idxErr := by
  unfold parse_input
  refine parse_loop_no_idxErr table ts tokens fuel [start, endSym] 0 [] ?_
  simp

end Claims

end LL1
